import Mathlib

/-!
# Verification of `src/arithmetic/fields.rs`

A shallow embedding of the limb-arithmetic primitives (`adc`, `sbb`, `mac`)
and the default trait methods (`BaseExt::pow`, `BaseExt::ct_is_zero`,
`BaseExt::write` / `BaseExt::read`) of the `pairing` crate's field
abstraction layer, together with proofs of the specified properties.

Machine integers are modelled as `Nat` with explicit reduction modulo
`2 ^ 64` (u64) and `2 ^ 128` (u128).  Theorems restrict inputs to the u64
range with explicit hypotheses.  The `BaseExt` trait is generic over the
concrete field type; it is embedded as a record `FieldOps` of the
operations a conforming type must supply, and theorems assume the trait
laws (`FieldLaws`, or the `ConstantTimeEq` contract) as hypotheses.
-/

/-- Embedding of `adc`: `let ret = (a as u128) + (b as u128) + (carry as u128);
(ret as u64, (ret >> 64) as u64)`.  The u128 sum is reduced mod `2 ^ 128`
(a no-op for in-range inputs, kept for faithfulness); the components are
the low and high 64-bit limbs of `ret`. -/
def adc (a b carry : Nat) : Nat × Nat :=
  let ret := (a + b + carry) % 2 ^ 128
  (ret % 2 ^ 64, ret / 2 ^ 64 % 2 ^ 64)

/-- Embedding of `sbb`: `let ret = (a as u128).wrapping_sub((b as u128) +
((borrow >> 63) as u128)); (ret as u64, (ret >> 64) as u64)`.  For `a`, `b`,
`borrow` below `2 ^ 64` the wrapping u128 subtraction equals
`(a + 2 ^ 128 - (b + borrow / 2 ^ 63)) % 2 ^ 128`; note the incoming borrow
contributes only its top bit `borrow >> 63`. -/
def sbb (a b borrow : Nat) : Nat × Nat :=
  let ret := (a + 2 ^ 128 - (b + borrow / 2 ^ 63)) % 2 ^ 128
  (ret % 2 ^ 64, ret / 2 ^ 64 % 2 ^ 64)

/-- Embedding of `mac`: `let ret = (a as u128) + ((b as u128) * (c as u128)) +
(carry as u128); (ret as u64, (ret >> 64) as u64)`. -/
def mac (a b c carry : Nat) : Nat × Nat :=
  let ret := (a + b * c + carry) % 2 ^ 128
  (ret % 2 ^ 64, ret / 2 ^ 64 % 2 ^ 64)

/-- Claim C2 exactly as stated: the third argument is a borrow *bit*
`c ≤ 1` that is subtracted directly, with the congruence
`a - b - c ≡ diff (mod 2 ^ 64)` and the top bit of `borrow_out` flagging a
negative true difference. -/
def sbbBitClaim : Prop :=
  ∀ a b c : Nat, a < 2 ^ 64 → b < 2 ^ 64 → c ≤ 1 →
    ((a : Int) - b - c) % 2 ^ 64 = (sbb a b c).1 ∧
      ((sbb a b c).2 / 2 ^ 63 = 1 ↔ (a : Int) - b - c < 0)

/-- The operations the `BaseExt` trait requires of a conforming field type
(`ff::Field` supplies `zero`, `one`, `mul`, `square`; `ConstantTimeEq`
supplies `ct_eq`, modelled as a `Bool`-valued test). -/
structure FieldOps (F : Type) where
  zero : F
  one : F
  mul : F → F → F
  square : F → F
  ctEq : F → F → Bool

/-- The trait laws assumed of a conforming field type's `one`, `square` and
multiplication (the monoid fragment of the `ff::Field` laws used by `pow`). -/
structure FieldLaws {F : Type} (O : FieldOps F) : Prop where
  mul_assoc : ∀ a b c : F, O.mul (O.mul a b) c = O.mul a (O.mul b c)
  one_mul : ∀ a : F, O.mul O.one a = a
  mul_one : ∀ a : F, O.mul a O.one = a
  square_eq : ∀ a : F, O.square a = O.mul a a

/-- The `subtle` crate's `conditional_assign(&tmp, choice)` contract: keep
the current value when the choice bit is `0`, take `tmp` when it is `1`. -/
def conditionalAssign {F : Type} (r tmp : F) (bit : Nat) : F :=
  if bit = 1 then tmp else r

/-- One iteration of the inner loop of `BaseExt::pow` at bit index `i` of
limb `e`: `res = res.square(); let mut tmp = res; tmp *= self;
res.conditional_assign(&tmp, (((*e >> i) & 0x1) as u8).into())`. -/
def powBit {F : Type} (O : FieldOps F) (base : F) (e : Nat) (res : F) (i : Nat) : F :=
  let r := O.square res
  let tmp := O.mul r base
  conditionalAssign r tmp (e >>> i &&& 1)

/-- Embedding of the default `BaseExt::pow`: start from `Self::one()`, fold
over the exponent limbs in reverse (`by.iter().rev()`) and, per limb, over
the bit indices `(0..64).rev()`. -/
def BaseExt.pow {F : Type} (O : FieldOps F) (base : F) (by_ : List Nat) : F :=
  by_.reverse.foldl
    (fun res e => ((List.range 64).reverse).foldl (powBit O base e) res)
    O.one

/-- Reference semantics for exponentiation: `iterMul O base k` is `base`
multiplied into `one` exactly `k` times (repeated self-multiplication). -/
def iterMul {F : Type} (O : FieldOps F) (base : F) : Nat → F
  | 0 => O.one
  | n + 1 => O.mul (iterMul O base n) base

/-- `bitRun f res n` applies `f` at indices `n-1, n-2, …, 0`, the recursion
underlying a `foldl` over `(List.range n).reverse`. -/
def bitRun {F : Type} (f : F → Nat → F) : F → Nat → F
  | res, 0 => res
  | res, n + 1 => bitRun f (f res n) n

/-- Labels for the field operations `BaseExt::pow` performs: a squaring of
the running result, a multiplication of the squared result by the base, and
a constant-time conditional select. -/
inductive FOp where
  | square : FOp
  | mulBase : FOp
  | select : FOp
deriving DecidableEq, BEq, Repr

/-- The operation trace of `n` iterations of the `pow` inner loop: each
iteration performs one squaring, one multiplication by the base, and one
conditional select, in that order. -/
def opTrace : Nat → List FOp
  | 0 => []
  | n + 1 => FOp.square :: FOp.mulBase :: FOp.select :: opTrace n

/-- The inner-loop iteration of `BaseExt::pow` instrumented with the trace
of field operations it performs (same computation as `powBit` on the first
component). -/
def powBitT {F : Type} (O : FieldOps F) (base : F) (e : Nat)
    (st : F × List FOp) (i : Nat) : F × List FOp :=
  let r := O.square st.1
  let tmp := O.mul r base
  (conditionalAssign r tmp (e >>> i &&& 1),
    st.2 ++ [FOp.square, FOp.mulBase, FOp.select])

/-- `BaseExt::pow` instrumented with its trace of field operations. -/
def powT {F : Type} (O : FieldOps F) (base : F) (by_ : List Nat) : F × List FOp :=
  by_.reverse.foldl
    (fun st e => ((List.range 64).reverse).foldl (powBitT O base e) st)
    (O.one, [])

/-- Embedding of the default `BaseExt::ct_is_zero`: `self.ct_eq(&Self::zero())`. -/
def BaseExt.ct_is_zero {F : Type} (O : FieldOps F) (x : F) : Bool :=
  O.ctEq x O.zero

/-- A concrete conforming instance over `Nat` (multiplicative monoid with
boolean equality), used to instantiate the generic theorems. -/
def natOps : FieldOps Nat where
  zero := 0
  one := 1
  mul := Nat.mul
  square := fun x => Nat.mul x x
  ctEq := fun a b => a == b

/-- Little-endian base-256 digits of `v`, exactly `n` bytes. -/
def natToBytesLE : Nat → Nat → List Nat
  | 0, _ => []
  | n + 1, v => v % 256 :: natToBytesLE n (v / 256)

/-- The integer encoded by a little-endian byte list. -/
def bytesLEToNat : List Nat → Nat
  | [] => 0
  | b :: bs => b + 256 * bytesLEToNat bs

/-- Modelled from the spec: `BaseExt::write` has no default body under
`src/` (each concrete field supplies it); the spec fixes the encoding as
"normalized, little endian form" of fixed length — the element's least
nonnegative residue written as exactly `n` little-endian bytes.  Elements
of a field with `p` residues are modelled as `Fin p`. -/
def BaseExt.write (n p : Nat) (x : Fin p) : List Nat :=
  natToBytesLE n x.val

/-- Modelled from the spec: `BaseExt::read` has no default body under
`src/`; the spec says it consumes exactly `n` bytes from the stream,
failing when fewer are available, decodes them little-endian, and may
reject a non-canonical representative not below the modulus. -/
def BaseExt.read (n p : Nat) (stream : List Nat) : Option (Fin p) :=
  if n ≤ stream.length then
    if h : bytesLEToNat (stream.take n) < p then some ⟨_, h⟩ else none
  else none

/-! ## Theorems -/

/-- C2, counterexample: at `a = 0`, `b = 0`, `c = 1` the code subtracts
`c >> 63 = 0`, so `sbb 0 0 1 = (0, 0)`, while the claim demands
`diff = 2 ^ 64 - 1` and the borrow-out flag set. -/
theorem sbb_bit_claim_false : ¬ sbbBitClaim := by
  intro h
  have h1 := (h 0 0 1 (by norm_num) (by norm_num) le_rfl).1
  simp only [sbb] at h1
  norm_num at h1

/-- C2 (amended): for all `a`, `b` and borrow limb `c` below `2 ^ 64`, with
`bit = c >> 63` the actually subtracted borrow bit, `sbb a b c` returns
`(diff, borrow_out)` with `a - b - bit ≡ diff (mod 2 ^ 64)` and the top bit
of `borrow_out` equal to `1` iff the true (unwrapped) subtraction
`a - b - bit` is negative. -/
theorem sbb_spec_amended (a b c : Nat)
    (ha : a < 2 ^ 64) (hb : b < 2 ^ 64) (hc : c < 2 ^ 64) :
    ((a : Int) - b - c / 2 ^ 63) % 2 ^ 64 = (sbb a b c).1 ∧
      ((sbb a b c).2 / 2 ^ 63 = 1 ↔ (a : Int) - b - c / 2 ^ 63 < 0) := by
  simp only [sbb]
  refine ⟨by omega, ?_, ?_⟩ <;> intro h <;> omega

/-- C2, witness: the amended theorem instantiated at `a = 0`, `b = 1`,
`c = 0`, reproducing the spec scenario `sbb(0, 1, 0) = (0xFFFF…F, flag set)`. -/
theorem sbb_spec_amended_witness :
    ((0 : Int) - 1 - 0 / 2 ^ 63) % 2 ^ 64 = (sbb 0 1 0).1 ∧
      ((sbb 0 1 0).2 / 2 ^ 63 = 1 ↔ (0 : Int) - 1 - 0 / 2 ^ 63 < 0) :=
  sbb_spec_amended 0 1 0 (by norm_num) (by norm_num) (by norm_num)

/-- C3: `sbb` reads only the top bit of the incoming borrow limb: the low
output limb is the wrapping subtraction `a - (b + (c >> 63))` reduced to
64 bits, two borrow inputs with the same bit 63 give identical outputs, and
an incoming borrow of literal `1` subtracts nothing extra. -/
theorem sbb_topbit_spec (a b x y : Nat)
    (ha : a < 2 ^ 64) (hb : b < 2 ^ 64) (hx : x < 2 ^ 64) (hy : y < 2 ^ 64) :
    ((sbb a b x).1 : Int) = ((a : Int) - (b + x / 2 ^ 63)) % 2 ^ 64 ∧
      (x.testBit 63 = y.testBit 63 → sbb a b x = sbb a b y) ∧
      sbb a b 1 = sbb a b 0 := by
  refine ⟨?_, ?_, ?_⟩
  · simp only [sbb]
    omega
  · intro hbit
    rw [Nat.testBit_to_div_mod, Nat.testBit_to_div_mod, decide_eq_decide] at hbit
    simp only [sbb]
    have hdiv : x / 2 ^ 63 = y / 2 ^ 63 := by omega
    rw [hdiv]
  · simp only [sbb]
    norm_num

/-- C3, witness: instantiated at `a = 5`, `b = 2`, `x = 2 ^ 63`,
`y = 2 ^ 63 + 7` (same top bit). -/
theorem sbb_topbit_spec_witness :
    ((sbb 5 2 (2 ^ 63)).1 : Int) = ((5 : Int) - (2 + 2 ^ 63 / 2 ^ 63)) % 2 ^ 64 ∧
      ((2 ^ 63 : Nat).testBit 63 = (2 ^ 63 + 7 : Nat).testBit 63 →
        sbb 5 2 (2 ^ 63) = sbb 5 2 (2 ^ 63 + 7)) ∧
      sbb 5 2 1 = sbb 5 2 0 :=
  sbb_topbit_spec 5 2 (2 ^ 63) (2 ^ 63 + 7)
    (by norm_num) (by norm_num) (by norm_num) (by norm_num)

/-- C4: for 64-bit limbs `a`, `b` and a carry bit `c ≤ 1`,
`adc a b c = (sum, carry_out)` with `a + b + c = carry_out * 2 ^ 64 + sum`
exactly (the 128-bit intermediate cannot overflow). -/
theorem adc_spec (a b c : Nat) (ha : a < 2 ^ 64) (hb : b < 2 ^ 64) (hc : c ≤ 1) :
    (adc a b c).2 * 2 ^ 64 + (adc a b c).1 = a + b + c := by
  simp only [adc]
  omega

/-- C4, witness: the spec scenario `adc(0xFFFFFFFFFFFFFFFF, 1, 0) = (0, 1)`. -/
theorem adc_spec_witness :
    (adc (2 ^ 64 - 1) 1 0).2 * 2 ^ 64 + (adc (2 ^ 64 - 1) 1 0).1 = (2 ^ 64 - 1) + 1 + 0 :=
  adc_spec (2 ^ 64 - 1) 1 0 (by norm_num) (by norm_num) (by norm_num)

/-- C5: for all 64-bit limbs, `mac a b c carry = (sum, carry_out)` with
`a + b * c + carry = carry_out * 2 ^ 64 + sum` exactly; the triple-term
intermediate stays below `2 ^ 128` even at maximal inputs. -/
theorem mac_spec (a b c carry : Nat)
    (ha : a < 2 ^ 64) (hb : b < 2 ^ 64) (hc : c < 2 ^ 64) (hcar : carry < 2 ^ 64) :
    a + b * c + carry < 2 ^ 128 ∧
      (mac a b c carry).2 * 2 ^ 64 + (mac a b c carry).1 = a + b * c + carry := by
  have hm : b * c ≤ (2 ^ 64 - 1) * (2 ^ 64 - 1) :=
    Nat.mul_le_mul (by omega) (by omega)
  constructor
  · omega
  · simp only [mac]
    omega

/-- C5, witness: the spec scenario `mac(0, 3, 4, 0) = (12, 0)`. -/
theorem mac_spec_witness :
    0 + 3 * 4 + 0 < 2 ^ 128 ∧
      (mac 0 3 4 0).2 * 2 ^ 64 + (mac 0 3 4 0).1 = 0 + 3 * 4 + 0 :=
  mac_spec 0 3 4 0 (by norm_num) (by norm_num) (by norm_num) (by norm_num)

/-- C9: the borrow-out of `sbb` is always either `0` (no underflow of the
wrapped subtraction) or the all-ones limb `2 ^ 64 - 1` (underflow), never
any other value; consequently its top bit carries exactly the 0/1 borrow
flag for the next `sbb` in a chain. -/
theorem sbb_borrow_out_spec (a b c : Nat)
    (ha : a < 2 ^ 64) (hb : b < 2 ^ 64) (hc : c < 2 ^ 64) :
    (sbb a b c).2 = (if a < b + c / 2 ^ 63 then 2 ^ 64 - 1 else 0) ∧
      (sbb a b c).2 / 2 ^ 63 = (if a < b + c / 2 ^ 63 then 1 else 0) := by
  simp only [sbb]
  constructor <;> split <;> omega

/-- C9, witness: instantiated at `a = 0`, `b = 1`, `c = 0` (underflow case). -/
theorem sbb_borrow_out_spec_witness :
    (sbb 0 1 0).2 = (if 0 < 1 + 0 / 2 ^ 63 then 2 ^ 64 - 1 else 0) ∧
      (sbb 0 1 0).2 / 2 ^ 63 = (if 0 < 1 + 0 / 2 ^ 63 then 1 else 0) :=
  sbb_borrow_out_spec 0 1 0 (by norm_num) (by norm_num) (by norm_num)

/-- C10: `adc` is exact for an arbitrary full-limb carry input, not only a
carry bit, and the carry-out reaches `2` at the maximal inputs. -/
theorem adc_full_carry_spec (a b c : Nat)
    (ha : a < 2 ^ 64) (hb : b < 2 ^ 64) (hc : c < 2 ^ 64) :
    ((adc a b c).2 * 2 ^ 64 + (adc a b c).1 = a + b + c) ∧
      (adc (2 ^ 64 - 1) (2 ^ 64 - 1) (2 ^ 64 - 1)).2 = 2 := by
  simp only [adc]
  constructor
  · omega
  · norm_num

/-- C10, witness: instantiated at the maximal limbs, where the carry input
exceeds `1` and the carry-out is `2`. -/
theorem adc_full_carry_spec_witness :
    ((adc (2 ^ 64 - 1) (2 ^ 64 - 1) (2 ^ 64 - 1)).2 * 2 ^ 64 +
        (adc (2 ^ 64 - 1) (2 ^ 64 - 1) (2 ^ 64 - 1)).1 =
      (2 ^ 64 - 1) + (2 ^ 64 - 1) + (2 ^ 64 - 1)) ∧
      (adc (2 ^ 64 - 1) (2 ^ 64 - 1) (2 ^ 64 - 1)).2 = 2 :=
  adc_full_carry_spec (2 ^ 64 - 1) (2 ^ 64 - 1) (2 ^ 64 - 1)
    (by norm_num) (by norm_num) (by norm_num)

/-- A `foldl` over `(List.range n).reverse` visits indices `n-1, …, 0`,
which is the recursion `bitRun`. -/
theorem range_reverse_foldl {F : Type} (f : F → Nat → F) (n : Nat) (res : F) :
    ((List.range n).reverse).foldl f res = bitRun f res n := by
  induction n generalizing res with
  | zero => simp [bitRun]
  | succ n ih =>
    rw [List.range_succ, List.reverse_append]
    simp only [List.reverse_cons, List.reverse_nil, List.nil_append, List.foldl_cons]
    exact ih (f res n)

/-- Repeated self-multiplication is additive in the iteration count,
assuming the trait laws. -/
theorem iterMul_add {F : Type} {O : FieldOps F} (hL : FieldLaws O) (base : F) (m n : Nat) :
    iterMul O base (m + n) = O.mul (iterMul O base m) (iterMul O base n) := by
  induction n with
  | zero => simp [iterMul, hL.mul_one]
  | succ n ih =>
    show iterMul O base (m + n + 1) = _
    simp only [iterMul]
    rw [ih, hL.mul_assoc]

/-- Square-and-multiply invariant: running `n` inner-loop iterations of
`pow` on limb `e` starting from `base` iterated `k` times yields `base`
iterated `k * 2 ^ n + e % 2 ^ n` times. -/
theorem bitRun_powBit {F : Type} {O : FieldOps F} (hL : FieldLaws O) (base : F) (e : Nat) :
    ∀ (n k : Nat), bitRun (powBit O base e) (iterMul O base k) n =
      iterMul O base (k * 2 ^ n + e % 2 ^ n) := by
  intro n
  induction n with
  | zero => simp [bitRun, Nat.mod_one]
  | succ n ih =>
    intro k
    have hbit : e >>> n &&& 1 = e / 2 ^ n % 2 := by
      simp [Nat.shiftRight_eq_div_pow, Nat.and_one_is_mod]
    have hsq : O.square (iterMul O base k) = iterMul O base (k + k) := by
      rw [hL.square_eq, ← iterMul_add hL]
    have hstep : powBit O base e (iterMul O base k) n =
        iterMul O base (2 * k + e / 2 ^ n % 2) := by
      simp only [powBit, conditionalAssign, hbit, hsq]
      rw [show O.mul (iterMul O base (k + k)) base = iterMul O base (k + k + 1) from rfl]
      rcases Nat.mod_two_eq_zero_or_one (e / 2 ^ n) with h2 | h2 <;> rw [h2]
      · rw [if_neg (by norm_num)]
        congr 1
        omega
      · rw [if_pos rfl]
        congr 1
        omega
    show bitRun (powBit O base e) (powBit O base e (iterMul O base k) n) n = _
    rw [hstep, ih]
    rw [pow_succ, Nat.mod_mul]
    congr 1
    ring

/-- C1: for any conforming field (trait laws assumed) and any 4-limb
little-endian exponent, the default `BaseExt::pow` equals the base
multiplied into `one` exactly `b0 + b1·2^64 + b2·2^128 + b3·2^192` times —
the 256-bit integer the limbs encode. -/
theorem pow_spec {F : Type} (O : FieldOps F) (hL : FieldLaws O) (base : F)
    (b0 b1 b2 b3 : Nat)
    (h0 : b0 < 2 ^ 64) (h1 : b1 < 2 ^ 64) (h2 : b2 < 2 ^ 64) (h3 : b3 < 2 ^ 64) :
    BaseExt.pow O base [b0, b1, b2, b3] =
      iterMul O base (b0 + b1 * 2 ^ 64 + b2 * 2 ^ 128 + b3 * 2 ^ 192) := by
  have hinner : ∀ (e k : Nat), e < 2 ^ 64 →
      ((List.range 64).reverse).foldl (powBit O base e) (iterMul O base k) =
        iterMul O base (k * 2 ^ 64 + e) := by
    intro e k he
    rw [range_reverse_foldl, bitRun_powBit hL, Nat.mod_eq_of_lt he]
  have hexp : BaseExt.pow O base [b0, b1, b2, b3] =
      ((List.range 64).reverse).foldl (powBit O base b0)
        (((List.range 64).reverse).foldl (powBit O base b1)
          (((List.range 64).reverse).foldl (powBit O base b2)
            (((List.range 64).reverse).foldl (powBit O base b3)
              (iterMul O base 0)))) := rfl
  rw [hexp, hinner b3 0 h3, hinner b2 _ h2, hinner b1 _ h1, hinner b0 _ h0]
  congr 1
  ring

/-- The `Nat` instance satisfies the trait laws. -/
theorem natOps_laws : FieldLaws natOps :=
  ⟨Nat.mul_assoc, Nat.one_mul, Nat.mul_one, fun _ => rfl⟩

/-- C1, witness: over the `Nat` instance with base `1` and exponent limbs
`[3, 0, 0, 0]`. -/
theorem pow_spec_witness :
    BaseExt.pow natOps 1 [3, 0, 0, 0] =
      iterMul natOps 1 (3 + 0 * 2 ^ 64 + 0 * 2 ^ 128 + 0 * 2 ^ 192) :=
  pow_spec natOps natOps_laws 1 3 0 0 0
    (by norm_num) (by norm_num) (by norm_num) (by norm_num)

/-- The operation trace is additive in the iteration count. -/
theorem opTrace_add (m n : Nat) : opTrace (m + n) = opTrace m ++ opTrace n := by
  induction m with
  | zero => simp [opTrace]
  | succ m ih =>
    have h : m + 1 + n = (m + n) + 1 := by omega
    rw [h]
    simp only [opTrace, ih, List.cons_append]

/-- The instrumented inner loop computes the same field value as the plain
one and appends exactly one `square`/`mulBase`/`select` triple per
iteration, independent of the limb's bits. -/
theorem bitRun_powBitT {F : Type} (O : FieldOps F) (base : F) (e : Nat) :
    ∀ (n : Nat) (st : F × List FOp),
      bitRun (powBitT O base e) st n =
        (bitRun (powBit O base e) st.1 n, st.2 ++ opTrace n) := by
  intro n
  induction n with
  | zero => intro st; simp [bitRun, opTrace]
  | succ n ih =>
    intro st
    show bitRun (powBitT O base e) (powBitT O base e st n) n = _
    rw [ih]
    show (bitRun (powBit O base e) (powBit O base e st.1 n) n,
        (st.2 ++ [FOp.square, FOp.mulBase, FOp.select]) ++ opTrace n) = _
    rw [List.append_assoc]
    rfl

/-- The instrumented outer loop: the trace grows by `64` triples per limb,
independent of the limb values. -/
theorem foldl_powT {F : Type} (O : FieldOps F) (base : F) :
    ∀ (l : List Nat) (st : F × List FOp),
      l.foldl (fun st e => ((List.range 64).reverse).foldl (powBitT O base e) st) st =
        (l.foldl (fun res e => ((List.range 64).reverse).foldl (powBit O base e) res) st.1,
          st.2 ++ opTrace (64 * l.length)) := by
  intro l
  induction l with
  | nil => intro st; simp [opTrace]
  | cons e l ih =>
    intro st
    simp only [List.foldl_cons]
    rw [range_reverse_foldl, bitRun_powBitT, ih]
    simp only [List.length_cons]
    rw [range_reverse_foldl]
    have h : 64 * (l.length + 1) = 64 + 64 * l.length := by ring
    rw [h, opTrace_add, ← List.append_assoc]

/-- The instrumented `pow` computes exactly `pow` together with the fixed
trace of `64 · #limbs` operation triples. -/
theorem powT_spec {F : Type} (O : FieldOps F) (base : F) (by_ : List Nat) :
    powT O base by_ = (BaseExt.pow O base by_, opTrace (64 * by_.length)) := by
  show by_.reverse.foldl _ ((O.one, []) : F × List FOp) = _
  rw [foldl_powT]
  simp [BaseExt.pow, List.length_reverse]

/-- The `n`-iteration trace holds exactly `n` squarings, `n` selects and
`n` multiplications by the base. -/
theorem opTrace_counts (n : Nat) :
    (opTrace n).count FOp.square = n ∧ (opTrace n).count FOp.select = n ∧
      (opTrace n).count FOp.mulBase = n := by
  induction n with
  | zero => simp [opTrace]
  | succ n ih =>
    simp only [opTrace, List.count_cons]
    refine ⟨?_, ?_, ?_⟩ <;> simp +decide [ih.1, ih.2.1, ih.2.2]

/-- C6: for any two 4-limb exponents, `pow` performs the identical sequence
of field operations — exactly 256 squarings, 256 conditional selects and
256 multiplications by the base — never short-circuiting on leading zero
bits; the instrumented run computes the same value as `pow`. -/
theorem pow_constant_ops {F : Type} (O : FieldOps F) (base : F) (e e' : List Nat)
    (he : e.length = 4) (he' : e'.length = 4) :
    (powT O base e).2 = (powT O base e').2 ∧
      (powT O base e).1 = BaseExt.pow O base e ∧
      (powT O base e).2.count FOp.square = 256 ∧
      (powT O base e).2.count FOp.select = 256 ∧
      (powT O base e).2.count FOp.mulBase = 256 := by
  rw [powT_spec, powT_spec, he, he']
  have hc := opTrace_counts (64 * 4)
  exact ⟨rfl, rfl, hc.1, hc.2.1, hc.2.2⟩

/-- C6, witness: the all-zero exponent and `[5, 6, 7, 8]` over the `Nat`
instance produce identical traces of 256 operation triples. -/
theorem pow_constant_ops_witness :
    (powT natOps 1 [0, 0, 0, 0]).2 = (powT natOps 1 [5, 6, 7, 8]).2 ∧
      (powT natOps 1 [0, 0, 0, 0]).1 = BaseExt.pow natOps 1 [0, 0, 0, 0] ∧
      (powT natOps 1 [0, 0, 0, 0]).2.count FOp.square = 256 ∧
      (powT natOps 1 [0, 0, 0, 0]).2.count FOp.select = 256 ∧
      (powT natOps 1 [0, 0, 0, 0]).2.count FOp.mulBase = 256 :=
  pow_constant_ops natOps 1 [0, 0, 0, 0] [5, 6, 7, 8] rfl rfl

/-- C8: assuming the `ConstantTimeEq` contract for `ct_eq`, the default
`ct_is_zero` returns true exactly on the additive identity, and it is
literally the constant-time equality of the element against zero. -/
theorem ct_is_zero_spec {F : Type} (O : FieldOps F)
    (hEq : ∀ a b : F, (O.ctEq a b = true) ↔ a = b) (x : F) :
    (BaseExt.ct_is_zero O x = true ↔ x = O.zero) ∧
      BaseExt.ct_is_zero O x = O.ctEq x O.zero :=
  ⟨hEq x O.zero, rfl⟩

/-- C8, witness: over the `Nat` instance at `x = 0`. -/
theorem ct_is_zero_spec_witness :
    (BaseExt.ct_is_zero natOps 0 = true ↔ 0 = natOps.zero) ∧
      BaseExt.ct_is_zero natOps 0 = natOps.ctEq 0 natOps.zero :=
  ct_is_zero_spec natOps (fun a b => by simp [natOps]) 0

/-- The encoding always has the fixed length `n`. -/
theorem natToBytesLE_length (n v : Nat) : (natToBytesLE n v).length = n := by
  induction n generalizing v with
  | zero => rfl
  | succ n ih => simp [natToBytesLE, ih]

/-- Decoding inverts encoding for integers below `256 ^ n`. -/
theorem bytesLEToNat_natToBytesLE (n : Nat) :
    ∀ v : Nat, v < 256 ^ n → bytesLEToNat (natToBytesLE n v) = v := by
  induction n with
  | zero =>
    intro v hv
    simp only [pow_zero, Nat.lt_one_iff] at hv
    simp [natToBytesLE, bytesLEToNat, hv]
  | succ n ih =>
    intro v hv
    have hdiv : v / 256 < 256 ^ n := by
      rw [Nat.div_lt_iff_lt_mul (by norm_num)]
      calc v < 256 ^ (n + 1) := hv
        _ = 256 ^ n * 256 := pow_succ 256 n
    simp only [natToBytesLE, bytesLEToNat, ih (v / 256) hdiv]
    omega

/-- C7: whenever the fixed encoding length `n` can represent every residue
of the field (`p ≤ 256 ^ n`), deserialising the bytes produced by
serialisation returns the original element: `read (write x) = some x`. -/
theorem read_write_roundtrip (n p : Nat) (hp : p ≤ 256 ^ n) (x : Fin p) :
    BaseExt.read n p (BaseExt.write n p x) = some x := by
  have hlen : (natToBytesLE n x.val).length = n := natToBytesLE_length n x.val
  have hv : x.val < 256 ^ n := lt_of_lt_of_le x.isLt hp
  have ht : List.take n (natToBytesLE n x.val) = natToBytesLE n x.val :=
    List.take_of_length_le (le_of_eq hlen)
  simp only [BaseExt.read, BaseExt.write, hlen, le_refl, if_true, ht,
    bytesLEToNat_natToBytesLE n x.val hv]
  simp [x.isLt]

/-- C7, witness: a one-byte field of 7 residues round-trips the element 5. -/
theorem read_write_roundtrip_witness :
    BaseExt.read 1 7 (BaseExt.write 1 7 ⟨5, by norm_num⟩) = some ⟨5, by norm_num⟩ :=
  read_write_roundtrip 1 7 (by norm_num) ⟨5, by norm_num⟩
